import Mathlib

/-!
Verification of the data-cleaning pipeline of `streamlit_app.py`
(`import_excel_from_github`).

The program normalizes free-text categorical columns of a spreadsheet with
`thefuzz.process.extractOne` (default processor and scorer, no
`score_cutoff` argument at any call site), maps state names to postal codes
through a fixed dictionary, derives an income bracket from an annualized
monthly income, and derives an elapsed-days column from two parsed dates.

This file shallowly embeds that pipeline.  `thefuzz` (0.22, backed by
`rapidfuzz`) is a third-party library; its default scorer
`fuzz.WRatio` and default processor (`default_process`: lowercase ASCII
letters, non-alphanumeric characters replaced by spaces, trimmed) are
modelled here exactly following the library's published algorithm:

* `ratioQ` — normalized indel similarity: `100 * 2*lcs(a,b) / (|a|+|b|)`;
* `windowScore` — the library's `partial_ratio`: best `ratioQ` of the
  shorter string against every alignment window of the longer one,
  including windows hanging off either edge;
* `tokenSortScore` / `tokenSetScore` — `token_sort_ratio` /
  `token_set_ratio` on whitespace-split, lexicographically sorted tokens;
* `windowTokenScore` — `partial_token_ratio` (with the common-word
  shortcut returning 100);
* `wratioP` — `WRatio`: the maximum of the base ratio and the scaled
  token/window scores, with the 1.5 / 8 length-ratio branching and the
  0.95 / 0.9 / 0.6 scale factors;
* `extractOne` — best match over the choice list, first maximum winning,
  results below the cutoff ignored (the call sites all use the default
  cutoff 0).

Scores are exact rationals; the library computes with binary doubles and
rounds final scores to integers for reporting, but the program only ever
uses the returned choice (`[0]`), and every fact proved below holds with
margins far wider than either effect.
-/

/-- ASCII alphanumeric test; `default_process` keeps exactly these
characters (the data in this pipeline is ASCII). -/
def isAsciiAlnum (c : Char) : Bool :=
  ('a' ≤ c && c ≤ 'z') || ('A' ≤ c && c ≤ 'Z') || ('0' ≤ c && c ≤ '9')

/-- Python whitespace characters relevant to `str.strip` / `str.split`. -/
def isPyWs (c : Char) : Bool :=
  c = ' ' || c = '\t' || c = '\n' || c = '\r' || c = '\x0b' || c = '\x0c'

/-- Strip leading and trailing whitespace (Python `str.strip`). -/
def trimWsL (l : List Char) : List Char :=
  ((l.dropWhile isPyWs).reverse.dropWhile isPyWs).reverse

/-- The fuzzy matcher's default processor `default_process`: lowercase,
replace every non-alphanumeric character by a space, strip both ends. -/
def fpL (l : List Char) : List Char :=
  trimWsL (l.map (fun c => let d := c.toLower; if isAsciiAlnum d then d else ' '))

/-- Processor applied to a `String` (the pipeline hands `str` values to
`process.extractOne`). -/
def fpS (s : String) : List Char := fpL s.data

/-- Python `str.lower` (ASCII data). -/
def pyLower (s : String) : String := String.mk (s.data.map Char.toLower)

/-- Python `str.strip`. -/
def pyStrip (s : String) : String := String.mk (trimWsL s.data)

/-- Fuelled longest-common-subsequence recursion (structural on the fuel,
so the kernel can evaluate it). -/
def lcsFuel : Nat → List Char → List Char → Nat
  | 0, _, _ => 0
  | _ + 1, [], _ => 0
  | _ + 1, _ :: _, [] => 0
  | f + 1, a :: s, b :: t =>
    if a = b then lcsFuel f s t + 1
    else max (lcsFuel f (a :: s) t) (lcsFuel f s (b :: t))

/-- Length of a longest common subsequence (the combined length is always
enough fuel); the indel (insert/delete) distance underlying the scorer's
base ratio is `|a| + |b| - 2 * lcsL a b`. -/
def lcsL (a b : List Char) : Nat := lcsFuel (a.length + b.length) a b

/-- `100 * n / d` with the empty-denominator convention used by the scorer
helpers. -/
def fracScore (n d : Nat) : ℚ :=
  if d = 0 then 0 else 100 * (n : ℚ) / (d : ℚ)

/-- The scorer's base similarity (`fuzz.ratio`, an indel Levenshtein
ratio): `100 * (1 - dist/(|a|+|b|)) = 100 * 2*lcs/(|a|+|b|)`, and 100 when
both strings are empty. -/
def ratioQ (a b : List Char) : ℚ :=
  if a.length + b.length = 0 then 100
  else fracScore (2 * lcsL a b) (a.length + b.length)

/-- Alignment windows of the needle `s1` inside the haystack `s2`
(`|s1| ≤ |s2|`): every contiguous window of length `|s1|`, plus the
shorter windows hanging off the left and right edges. -/
def alignWindows (s1 s2 : List Char) : List (List Char) :=
  ((List.range (s1.length - 1)).map fun i => s2.take (i + 1)) ++
  ((List.range (s2.length - s1.length + 1)).map fun i => (s2.drop i).take s1.length) ++
  ((List.range (s1.length - 1)).map fun i => s2.drop (s2.length - s1.length + 1 + i))

/-- Best base ratio of the needle against any alignment window. -/
def bestWindow (s1 s2 : List Char) : ℚ :=
  ((alignWindows s1 s2).map (ratioQ s1)).foldl max 0

/-- The library's `partial_ratio`: the shorter string is slid along the
longer one; for equal lengths both directions are tried. -/
def windowScore (a b : List Char) : ℚ :=
  if a.length = b.length then max (bestWindow a b) (bestWindow b a)
  else if a.length < b.length then bestWindow a b
  else bestWindow b a

/-- Split on runs of spaces (the processed strings contain no other
whitespace), Python `str.split()`. -/
def splitWsAux : List Char → List Char → List (List Char)
  | [], acc => if acc = [] then [] else [acc.reverse]
  | c :: rest, acc =>
    if c = ' ' then
      (if acc = [] then splitWsAux rest [] else acc.reverse :: splitWsAux rest [])
    else splitWsAux rest (c :: acc)

/-- Tokens of a processed string. -/
def splitWs (l : List Char) : List (List Char) := splitWsAux l []

/-- Lexicographic comparison of token strings (Python string order). -/
def lexLe : List Char → List Char → Bool
  | [], _ => true
  | _ :: _, [] => false
  | a :: s, b :: t => if a = b then lexLe s t else decide (a < b)

/-- Insert into a `lexLe`-sorted token list. -/
def insertTok (x : List Char) : List (List Char) → List (List Char)
  | [] => [x]
  | y :: r => if lexLe x y then x :: y :: r else y :: insertTok x r

/-- Sort a token list (Python `sorted`). -/
def sortToks (l : List (List Char)) : List (List Char) := l.foldr insertTok []

/-- Remove adjacent duplicates of a sorted token list. -/
def dedupAdj : List (List Char) → List (List Char)
  | [] => []
  | [x] => [x]
  | x :: y :: r => if x = y then dedupAdj (y :: r) else x :: dedupAdj (y :: r)

/-- Sorted set of tokens (Python `sorted(set(...))`). -/
def uniqueSorted (l : List (List Char)) : List (List Char) := dedupAdj (sortToks l)

/-- Join tokens with single spaces (Python `" ".join`). -/
def joinSp : List (List Char) → List Char
  | [] => []
  | [t] => t
  | t :: r => t ++ ' ' :: joinSp r

/-- `token_sort_ratio`: base ratio of the space-joined sorted token
lists. -/
def tokenSortScore (a b : List Char) : ℚ :=
  ratioQ (joinSp (sortToks (splitWs a))) (joinSp (sortToks (splitWs b)))

/-- Separator contribution of a nonempty intersection string. -/
def sectOne (sl : Nat) : Nat := if sl = 0 then 0 else 1

/-- The non-shortcut part of `token_set_ratio`, from the lengths `sl`,
`al`, `bl` of the joined intersection and difference strings and the lcs
of the two difference strings: the best of the similarity between
`sect+diff_ab` and `sect+diff_ba` (whose indel distance is that of the
difference strings) and the similarities between `sect` and each
`sect+diff` string. -/
def tokenSetCore (sl al bl lcs : Nat) : ℚ :=
  max (fracScore ((sl + sectOne sl + al) + (sl + sectOne sl + bl) - (al + bl - 2 * lcs))
      ((sl + sectOne sl + al) + (sl + sectOne sl + bl)))
    (max (fracScore (sl + (sl + sectOne sl + al) - (sectOne sl + al)) (sl + (sl + sectOne sl + al)))
      (fracScore (sl + (sl + sectOne sl + bl) - (sectOne sl + bl)) (sl + (sl + sectOne sl + bl))))

/-- `token_set_ratio`: 100 when the token sets intersect and one is
contained in the other; otherwise the best of the similarity between the
two difference strings (over the full combined lengths) and the
similarities between the intersection and each side. -/
def tokenSetScore (a b : List Char) : ℚ :=
  if uniqueSorted (splitWs a) = [] ∨ uniqueSorted (splitWs b) = [] then 0
  else if (uniqueSorted (splitWs a)).filter
        (fun x => (uniqueSorted (splitWs b)).contains x) ≠ [] ∧
      ((uniqueSorted (splitWs a)).filter
        (fun x => !(uniqueSorted (splitWs b)).contains x) = [] ∨
       (uniqueSorted (splitWs b)).filter
        (fun x => !(uniqueSorted (splitWs a)).contains x) = []) then 100
  else
    tokenSetCore
      (joinSp ((uniqueSorted (splitWs a)).filter
        (fun x => (uniqueSorted (splitWs b)).contains x))).length
      (joinSp ((uniqueSorted (splitWs a)).filter
        (fun x => !(uniqueSorted (splitWs b)).contains x))).length
      (joinSp ((uniqueSorted (splitWs b)).filter
        (fun x => !(uniqueSorted (splitWs a)).contains x))).length
      (lcsL
        (joinSp ((uniqueSorted (splitWs a)).filter
          (fun x => !(uniqueSorted (splitWs b)).contains x)))
        (joinSp ((uniqueSorted (splitWs b)).filter
          (fun x => !(uniqueSorted (splitWs a)).contains x))))

/-- `token_ratio`: best of the sort- and set-based token scores. -/
def tokenScore (a b : List Char) : ℚ := max (tokenSortScore a b) (tokenSetScore a b)

/-- `partial_token_ratio`: 100 as soon as the token sets share a word;
otherwise the window score of the sorted-token joins, also tried on the
deduplicated joins when some token repeats. -/
def windowTokenScore (a b : List Char) : ℚ :=
  if ((uniqueSorted (splitWs a)).filter
      (fun x => (uniqueSorted (splitWs b)).contains x)) ≠ [] then 100
  else if (uniqueSorted (splitWs a)).length < (splitWs a).length ∨
      (uniqueSorted (splitWs b)).length < (splitWs b).length then
    max (windowScore (joinSp (sortToks (splitWs a))) (joinSp (sortToks (splitWs b))))
      (windowScore (joinSp (uniqueSorted (splitWs a))) (joinSp (uniqueSorted (splitWs b))))
  else windowScore (joinSp (sortToks (splitWs a))) (joinSp (sortToks (splitWs b)))

/-- The default scorer `fuzz.WRatio` on processed strings: 0 when either
side is empty; otherwise the base ratio maxed with the scaled token score
(similar lengths) or the scaled window scores (dissimilar lengths). -/
def wratioP (a b : List Char) : ℚ :=
  if a.length = 0 ∨ b.length = 0 then 0
  else if (max a.length b.length : ℚ) < 3 / 2 * (min a.length b.length : ℚ) then
    max (ratioQ a b) (tokenScore a b * (19 / 20))
  else if (max a.length b.length : ℚ) < 8 * (min a.length b.length : ℚ) then
    max (ratioQ a b) (max (windowScore a b * (9 / 10))
      (windowTokenScore a b * (19 / 20) * (9 / 10)))
  else
    max (ratioQ a b) (max (windowScore a b * (3 / 5))
      (windowTokenScore a b * (19 / 20) * (3 / 5)))

/-- Score of a query against a choice as `process.extractOne` computes it:
both sides run through the default processor, then `WRatio`. -/
def wratio (q c : String) : ℚ := wratioP (fpS q) (fpS c)

/-- One step of the best-match scan: take a choice when no candidate is
held yet and its score reaches the cutoff, or when it strictly beats the
held score (so the first maximum wins). -/
def extractStep (q : String) (cutoff : ℚ) (best : Option (String × ℚ)) (c : String) :
    Option (String × ℚ) :=
  match best with
  | none => if cutoff ≤ wratio q c then some (c, wratio q c) else none
  | some (b, bs) => if bs < wratio q c then some (c, wratio q c) else some (b, bs)

/-- `process.extractOne(query, choices, score_cutoff=cutoff)`: the
first-encountered best-scoring choice, `none` when nothing reaches the
cutoff.  Every call site of the program uses the default cutoff 0. -/
def extractOne (cutoff : ℚ) (q : String) (choices : List String) : Option (String × ℚ) :=
  choices.foldl (extractStep q cutoff) none

/-- Python `[0]` on the match result; the call sites only ever read the
matched choice.  (With cutoff 0 and a nonempty choice list the result is
never `none`; Python would raise there.) -/
def subscript0 : Option (String × ℚ) → String
  | some p => p.1
  | none => ""

/-! ## Bounds on the scorer -/

theorem lcsFuel_le_left : ∀ (f : Nat) (a b : List Char), lcsFuel f a b ≤ a.length := by
  intro f
  induction f with
  | zero => intro a b; simp [lcsFuel]
  | succ f ih =>
    intro a b
    match a, b with
    | [], _ => simp [lcsFuel]
    | _ :: _, [] => simp [lcsFuel]
    | a :: s, b :: t =>
      simp only [lcsFuel, List.length_cons]
      split
      · have := ih s t; omega
      · exact max_le (ih (a :: s) t) (le_trans (ih s (b :: t)) (Nat.le_succ _))

theorem lcsFuel_le_right : ∀ (f : Nat) (a b : List Char), lcsFuel f a b ≤ b.length := by
  intro f
  induction f with
  | zero => intro a b; simp [lcsFuel]
  | succ f ih =>
    intro a b
    match a, b with
    | [], _ => simp [lcsFuel]
    | _ :: _, [] => simp [lcsFuel]
    | a :: s, b :: t =>
      simp only [lcsFuel, List.length_cons]
      split
      · have := ih s t; omega
      · exact max_le (le_trans (ih (a :: s) t) (Nat.le_succ _)) (ih s (b :: t))

theorem lcsFuel_self : ∀ (f : Nat) (a : List Char),
    a.length + a.length ≤ f → lcsFuel f a a = a.length := by
  intro f
  induction f with
  | zero =>
    intro a h
    have ha : a = [] := List.eq_nil_of_length_eq_zero (by omega)
    subst ha
    simp [lcsFuel]
  | succ f ih =>
    intro a h
    match a with
    | [] => simp [lcsFuel]
    | c :: s =>
      simp only [List.length_cons] at h
      have hs := ih s (by omega)
      simp [lcsFuel, hs]

theorem lcsFuel_eq_of_full : ∀ (f : Nat) (a b : List Char),
    a.length + b.length ≤ f → 2 * lcsFuel f a b = a.length + b.length → a = b := by
  intro f
  induction f with
  | zero =>
    intro a b hf he
    have ha : a = [] := List.eq_nil_of_length_eq_zero (by omega)
    have hb : b = [] := List.eq_nil_of_length_eq_zero (by omega)
    subst ha; subst hb; rfl
  | succ f ih =>
    intro a b hf he
    match a, b with
    | [], [] => rfl
    | [], _ :: _ => simp [lcsFuel] at he
    | _ :: _, [] => simp [lcsFuel] at he
    | a :: s, b :: t =>
      simp only [lcsFuel, List.length_cons] at he
      simp only [List.length_cons] at hf
      by_cases hab : a = b
      · rw [if_pos hab] at he
        subst hab
        rw [ih s t (by omega) (by omega)]
      · rw [if_neg hab] at he
        exfalso
        have h1 := lcsFuel_le_left f (a :: s) t
        have h2 := lcsFuel_le_right f (a :: s) t
        have h3 := lcsFuel_le_left f s (b :: t)
        have h4 := lcsFuel_le_right f s (b :: t)
        simp only [List.length_cons] at h1 h2 h3 h4
        rcases Nat.le_total (lcsFuel f (a :: s) t) (lcsFuel f s (b :: t)) with hc | hc
        · rw [Nat.max_eq_right hc] at he; omega
        · rw [Nat.max_eq_left hc] at he; omega

theorem lcsL_le_left (a b : List Char) : lcsL a b ≤ a.length :=
  lcsFuel_le_left _ a b

theorem lcsL_le_right (a b : List Char) : lcsL a b ≤ b.length :=
  lcsFuel_le_right _ a b

theorem lcsL_self (a : List Char) : lcsL a a = a.length :=
  lcsFuel_self _ a (le_refl _)

theorem eq_of_lcsL_full (a b : List Char) (h : 2 * lcsL a b = a.length + b.length) :
    a = b :=
  lcsFuel_eq_of_full _ a b (le_refl _) h

theorem fracScore_nonneg (n d : Nat) : 0 ≤ fracScore n d := by
  unfold fracScore
  split
  · exact le_refl 0
  · positivity

theorem fracScore_le_100 {n d : Nat} (h : n ≤ d) : fracScore n d ≤ 100 := by
  unfold fracScore
  split
  · norm_num
  · next hd =>
    rw [div_le_iff₀ (by positivity)]
    have : (n : ℚ) ≤ (d : ℚ) := by exact_mod_cast h
    nlinarith

theorem fracScore_lt_100 {n d : Nat} (h : n < d) : fracScore n d < 100 := by
  unfold fracScore
  split
  · norm_num
  · next hd =>
    rw [div_lt_iff₀ (by positivity)]
    have : (n : ℚ) < (d : ℚ) := by exact_mod_cast h
    nlinarith

theorem fracScore_self {d : Nat} (h : d ≠ 0) : fracScore d d = 100 := by
  unfold fracScore
  rw [if_neg h, mul_div_assoc, div_self (by exact_mod_cast h), mul_one]

theorem ratioQ_nonneg (a b : List Char) : 0 ≤ ratioQ a b := by
  unfold ratioQ
  split
  · norm_num
  · exact fracScore_nonneg _ _

theorem ratioQ_le_100 (a b : List Char) : ratioQ a b ≤ 100 := by
  unfold ratioQ
  split
  · norm_num
  · exact fracScore_le_100 (by
      have h1 := lcsL_le_left a b
      have h2 := lcsL_le_right a b
      omega)

theorem ratioQ_self (a : List Char) : ratioQ a a = 100 := by
  unfold ratioQ
  split
  · rfl
  · next h =>
    rw [lcsL_self]
    have : 2 * a.length = a.length + a.length := by omega
    rw [this]
    exact fracScore_self (by omega)

theorem ratioQ_lt_100_of_ne {a b : List Char} (h : a ≠ b) : ratioQ a b < 100 := by
  unfold ratioQ
  split
  · next hs =>
    exfalso
    have ha : a = [] := List.eq_nil_of_length_eq_zero (by omega)
    have hb : b = [] := List.eq_nil_of_length_eq_zero (by omega)
    exact h (ha.trans hb.symm)
  · next hs =>
    apply fracScore_lt_100
    have h1 := lcsL_le_left a b
    have h2 := lcsL_le_right a b
    rcases Nat.lt_or_ge (2 * lcsL a b) (a.length + b.length) with hlt | hge
    · exact hlt
    · exact absurd (eq_of_lcsL_full a b (by omega)) h

theorem foldl_max_le {M : ℚ} :
    ∀ (l : List ℚ) (init : ℚ), init ≤ M → (∀ x ∈ l, x ≤ M) → l.foldl max init ≤ M
  | [], _, hi, _ => hi
  | x :: l, init, hi, h =>
    foldl_max_le l (max init x) (max_le hi (h x (by simp)))
      (fun y hy => h y (by simp [hy]))

theorem bestWindow_le_100 (s1 s2 : List Char) : bestWindow s1 s2 ≤ 100 := by
  apply foldl_max_le
  · norm_num
  · intro x hx
    obtain ⟨w, _, rfl⟩ := List.mem_map.mp hx
    exact ratioQ_le_100 _ _

theorem windowScore_le_100 (a b : List Char) : windowScore a b ≤ 100 := by
  unfold windowScore
  split
  · exact max_le (bestWindow_le_100 _ _) (bestWindow_le_100 _ _)
  · split
    · exact bestWindow_le_100 _ _
    · exact bestWindow_le_100 _ _

theorem tokenSortScore_le_100 (a b : List Char) : tokenSortScore a b ≤ 100 :=
  ratioQ_le_100 _ _

theorem tokenSetCore_le_100 (sl al bl lcs : Nat) : tokenSetCore sl al bl lcs ≤ 100 :=
  max_le (fracScore_le_100 (Nat.sub_le _ _))
    (max_le (fracScore_le_100 (Nat.sub_le _ _)) (fracScore_le_100 (Nat.sub_le _ _)))

theorem tokenSetScore_le_100 (a b : List Char) : tokenSetScore a b ≤ 100 := by
  unfold tokenSetScore
  split
  · norm_num
  · split
    · norm_num
    · exact tokenSetCore_le_100 _ _ _ _

theorem tokenScore_le_100 (a b : List Char) : tokenScore a b ≤ 100 :=
  max_le (tokenSortScore_le_100 a b) (tokenSetScore_le_100 a b)

theorem windowTokenScore_le_100 (a b : List Char) : windowTokenScore a b ≤ 100 := by
  unfold windowTokenScore
  split
  · norm_num
  · split
    · exact max_le (windowScore_le_100 _ _) (windowScore_le_100 _ _)
    · exact windowScore_le_100 _ _

theorem wratioP_nonneg (a b : List Char) : 0 ≤ wratioP a b := by
  unfold wratioP
  split
  · exact le_refl 0
  · split
    · exact le_trans (ratioQ_nonneg a b) (le_max_left _ _)
    · split
      · exact le_trans (ratioQ_nonneg a b) (le_max_left _ _)
      · exact le_trans (ratioQ_nonneg a b) (le_max_left _ _)

theorem wratioP_le_100 (a b : List Char) : wratioP a b ≤ 100 := by
  unfold wratioP
  split
  · norm_num
  · split
    · exact max_le (ratioQ_le_100 a b)
        (by nlinarith [tokenScore_le_100 a b])
    · split
      · exact max_le (ratioQ_le_100 a b)
          (max_le (by nlinarith [windowScore_le_100 a b])
            (by nlinarith [windowTokenScore_le_100 a b]))
      · exact max_le (ratioQ_le_100 a b)
          (max_le (by nlinarith [windowScore_le_100 a b])
            (by nlinarith [windowTokenScore_le_100 a b]))

theorem wratioP_self {a : List Char} (h : a ≠ []) : wratioP a a = 100 := by
  have hl : a.length ≠ 0 := fun hc => h (List.eq_nil_of_length_eq_zero hc)
  unfold wratioP
  rw [if_neg (by omega)]
  rw [if_pos (by
    rw [max_self, min_self]
    have : (1 : ℚ) ≤ (a.length : ℚ) := by exact_mod_cast Nat.one_le_iff_ne_zero.mpr hl
    nlinarith)]
  rw [ratioQ_self]
  exact max_eq_left (by nlinarith [tokenScore_le_100 a a])

theorem wratioP_lt_100_of_ne {a b : List Char} (h : a ≠ b) : wratioP a b < 100 := by
  unfold wratioP
  split
  · norm_num
  · split
    · exact max_lt (ratioQ_lt_100_of_ne h)
        (by nlinarith [tokenScore_le_100 a b])
    · split
      · exact max_lt (ratioQ_lt_100_of_ne h)
          (max_lt (by nlinarith [windowScore_le_100 a b])
            (by nlinarith [windowTokenScore_le_100 a b]))
      · exact max_lt (ratioQ_lt_100_of_ne h)
          (max_lt (by nlinarith [windowScore_le_100 a b])
            (by nlinarith [windowTokenScore_le_100 a b]))

theorem wratio_nonneg (q c : String) : 0 ≤ wratio q c := wratioP_nonneg _ _

theorem wratio_le_100 (q c : String) : wratio q c ≤ 100 := wratioP_le_100 _ _

theorem wratio_self_eq_100 {v : String} (h : fpS v ≠ []) : wratio v v = 100 :=
  wratioP_self h

theorem wratio_lt_100_of_fp_ne {q u : String} (h : fpS q ≠ fpS u) : wratio q u < 100 :=
  wratioP_lt_100_of_ne h

/-! ## Behavior of the best-match scan -/

theorem foldl_extractStep_some (q : String) (t : ℚ) :
    ∀ (l : List String) (b : String × ℚ),
      ∃ r : String × ℚ, l.foldl (extractStep q t) (some b) = some r ∧
        (r = b ∨ r.1 ∈ l) := by
  intro l
  induction l with
  | nil => intro b; exact ⟨b, rfl, Or.inl rfl⟩
  | cons c l ih =>
    intro b
    simp only [List.foldl_cons]
    rcases em (b.2 < wratio q c) with hc | hc
    · obtain ⟨r, hr, hm⟩ := ih (c, wratio q c)
      refine ⟨r, ?_, ?_⟩
      · simpa [extractStep, hc] using hr
      · rcases hm with h | h
        · exact Or.inr (by simp [h])
        · exact Or.inr (by simp [h])
    · obtain ⟨r, hr, hm⟩ := ih b
      refine ⟨r, ?_, ?_⟩
      · simpa [extractStep, hc] using hr
      · rcases hm with h | h
        · exact Or.inl h
        · exact Or.inr (by simp [h])

/-- With the default cutoff 0 and a nonempty choice list, the scan always
returns a choice from the list. -/
theorem extractOne_mem (q : String) (l : List String) (hl : l ≠ []) :
    ∃ c s, extractOne 0 q l = some (c, s) ∧ c ∈ l := by
  match l, hl with
  | c :: l, _ =>
    unfold extractOne
    simp only [List.foldl_cons]
    have h0 : extractStep q 0 none c = some (c, wratio q c) := by
      simp [extractStep, wratio_nonneg]
    rw [h0]
    obtain ⟨r, hr, hm⟩ := foldl_extractStep_some q 0 l (c, wratio q c)
    refine ⟨r.1, r.2, by simp [hr], ?_⟩
    rcases hm with h | h
    · simp [h]
    · simp [h]

theorem foldl_keep_of_le (q : String) (t : ℚ) (b : String × ℚ) :
    ∀ l : List String, (∀ u ∈ l, wratio q u ≤ b.2) →
      l.foldl (extractStep q t) (some b) = some b := by
  intro l
  induction l with
  | nil => intro _; rfl
  | cons c l ih =>
    intro h
    simp only [List.foldl_cons]
    have hc : ¬ b.2 < wratio q c := not_lt.mpr (h c (by simp))
    have hstep : extractStep q t (some b) c = some b := by
      obtain ⟨b1, b2⟩ := b
      simp only [extractStep]
      rw [if_neg hc]
    rw [hstep]
    exact ih (fun u hu => h u (by simp [hu]))

theorem foldl_keep_max (q : String) (t : ℚ) (v : String) :
    ∀ l : List String, l.foldl (extractStep q t) (some (v, 100)) = some (v, 100) :=
  fun l => foldl_keep_of_le q t (v, 100) l (fun u _ => wratio_le_100 q u)

theorem foldl_reach_max (q : String) (t : ℚ) (v : String) (ht : t ≤ 100) :
    ∀ (l : List String) (acc : Option (String × ℚ)),
      v ∈ l → wratio q v = 100 → (∀ u ∈ l, u ≠ v → wratio q u < 100) →
      (acc = none ∨ ∃ b bs, acc = some (b, bs) ∧ bs < 100) →
      l.foldl (extractStep q t) acc = some (v, 100) := by
  intro l
  induction l with
  | nil => intro acc hv; exact absurd hv (List.not_mem_nil v)
  | cons c l ih =>
    intro acc hv h100 hlt hacc
    simp only [List.foldl_cons]
    rcases em (c = v) with hcv | hcv
    · subst hcv
      have hstep : extractStep q t acc c = some (c, 100) := by
        rcases hacc with h | ⟨b, bs, h, hbs⟩
        · subst h; simp [extractStep, h100, ht]
        · subst h; simp [extractStep, h100, hbs]
      rw [hstep]
      exact foldl_keep_max q t c l
    · have hcl : wratio q c < 100 := hlt c (by simp) hcv
      have hv' : v ∈ l := by
        rcases List.mem_cons.mp hv with h | h
        · exact absurd h.symm hcv
        · exact h
      apply ih _ hv' h100 (fun u hu => hlt u (by simp [hu]))
      rcases hacc with h | ⟨b, bs, h, hbs⟩
      · subst h
        rcases em (t ≤ wratio q c) with hc | hc
        · exact Or.inr ⟨c, wratio q c, by simp [extractStep, hc], hcl⟩
        · exact Or.inl (by simp [extractStep, hc])
      · subst h
        rcases em (bs < wratio q c) with hc | hc
        · exact Or.inr ⟨c, wratio q c, by simp [extractStep, hc], hcl⟩
        · exact Or.inr ⟨b, bs, by simp [extractStep, hc], hbs⟩

/-- When the query scores a strict maximum of 100 on the choice `v`, the
scan returns `v` (with its score) for every cutoff at most 100. -/
theorem extractOne_uniqueMax {t : ℚ} {q v : String} {l : List String}
    (ht : t ≤ 100) (hv : v ∈ l) (h100 : wratio q v = 100)
    (hlt : ∀ u ∈ l, u ≠ v → wratio q u < 100) :
    extractOne t q l = some (v, 100) :=
  foldl_reach_max q t v ht l none hv h100 hlt (Or.inl rfl)

/-- A canonical value that is in the choice list and whose processed form
is nonempty and distinct from every other choice's processed form is
returned unchanged, for every cutoff at most 100 (its self-score is
exactly 100). -/
theorem extractOne_canonical {t : ℚ} {v : String} {l : List String}
    (ht : t ≤ 100) (hv : v ∈ l) (hne : fpS v ≠ [])
    (hd : ∀ u ∈ l, u ≠ v → fpS u ≠ fpS v) :
    extractOne t v l = some (v, 100) :=
  extractOne_uniqueMax ht hv (wratio_self_eq_100 hne)
    (fun u hu huv => wratio_lt_100_of_fp_ne (Ne.symm (hd u hu huv)))

/-! ## The cleaning pipeline of `import_excel_from_github` -/

/-- A spreadsheet cell as the cleaning code sees it: a missing value
(`NaN`/`None`/`NaT`) or a string. -/
inductive Cell where
  | na : Cell
  | str : String → Cell
deriving DecidableEq

/-- `pd.Series.astype(str)`: stringify every cell; `str(nan)` is the
three-letter string `"nan"`. -/
def astypeStr : Cell → String
  | Cell.na => "nan"
  | Cell.str s => s

/-- `pd.notna` on a value that has already been run through
`astype(str)`: every `str` instance is non-null, so this is constantly
true — the guards written against it cannot fail. -/
def pdNotnaStr (_ : String) : Bool := true

/-- `pd.notna` on a raw cell (used by the `Hispanic/Latino` lambda, the
one `apply` without a preceding `astype(str)`). -/
def pdNotna : Cell → Bool
  | Cell.na => false
  | Cell.str _ => true

/-- Line 19: `df.replace(to_replace=r'(?i)^missing$', value=np.nan,
regex=True)` — a cell whose whole text is `missing`, case-insensitively,
becomes `NaN` before any column is cleaned. -/
def replaceMissing : Cell → Cell
  | Cell.na => Cell.na
  | Cell.str s => if pyLower s = "missing" then Cell.na else Cell.str s

def requestStatusOptions : List String := ["pending", "approved", "denied", "completed"]

def applicationSignedOptions : List String := ["yes", "no", "n/a"]

def genderOptions : List String :=
  ["male", "female", "transgender", "nonbinary", "decline to answer", "other"]

def raceOptions : List String :=
  ["American Indian or Alaska Native", "Asian", "Black or African American",
   "Middle Eastern or North African", "Native Hawaiian or Pacific Islander",
   "White", "decline to answer", "other", "two or more"]

def insuranceOptions : List String :=
  ["medicare", "medicaid", "medicare & medicaid", "uninsured",
   "private", "military", "unknown"]

def maritalOptions : List String :=
  ["single", "married", "widowed", "divorced", "domestic partnership", "separated"]

def assistanceOptions : List String :=
  ["Medical Supplies/Prescription Co-pay(s)", "Food/Groceries", "Gas", "Other",
   "Hotel", "Housing", "Utilities", "Car Payment", "Phone/Internet", "Multiple"]

/-- The `state_to_postal` dictionary, in insertion order
(`list(state_to_postal.keys())` preserves it). -/
def stateToPostal : List (String × String) :=
  [("Nebraska", "NE"), ("Iowa", "IA"), ("Kansas", "KS"), ("Missouri", "MO"),
   ("South Dakota", "SD"), ("Wyoming", "WY"), ("Colorado", "CO"), ("Minnesota", "MN")]

/-- Python `dict.get(k, d)` on an association list. -/
def dictGet : List (String × String) → String → String → String
  | [], _, d => d
  | (a, b) :: rest, k, d => if a = k then b else dictGet rest k d

/-- `Request Status` lambda: fuzzy-match `x.lower().strip()` against the
four status options unless the stringified cell is (after lowering and
stripping) the text `nan`, in which case emit `np.nan`. -/
def cleanRequestStatus (c : Cell) : Cell :=
  if pdNotnaStr (astypeStr c) = true ∧ pyStrip (pyLower (astypeStr c)) ≠ "nan" then
    Cell.str (subscript0
      (extractOne 0 (pyStrip (pyLower (astypeStr c))) requestStatusOptions))
  else Cell.na

/-- `Application Signed?` lambda: fuzzy-match `x.lower()` against
`yes`/`no`/`n/a`; the `else 'N/A'` fallback is guarded by `pd.notna` on an
already-stringified value. -/
def cleanApplicationSigned (c : Cell) : Cell :=
  if pdNotnaStr (astypeStr c) = true then
    Cell.str (subscript0 (extractOne 0 (pyLower (astypeStr c)) applicationSignedOptions))
  else Cell.str "N/A"

/-- `Pt State` lambda: fuzzy-match the stringified cell against the state
names, then `state_to_postal.get(match, x)`; missing (stringified `nan`)
values pass through as the string itself. -/
def cleanPtState (c : Cell) : Cell :=
  if pdNotnaStr (astypeStr c) = true ∧ astypeStr c ≠ "nan" then
    Cell.str (dictGet stateToPostal
      (subscript0 (extractOne 0 (astypeStr c) (stateToPostal.map Prod.fst)))
      (astypeStr c))
  else Cell.str (astypeStr c)

/-- `Gender` lambda: fuzzy-match the stringified cell as-is; the
stringified missing value `nan` passes through as the string itself. -/
def cleanGender (c : Cell) : Cell :=
  if pdNotnaStr (astypeStr c) = true ∧ astypeStr c ≠ "nan" then
    Cell.str (subscript0 (extractOne 0 (astypeStr c) genderOptions))
  else Cell.str (astypeStr c)

/-- `Race` lambda, same shape as `Gender` with the race options (stored
casing preserved in the emitted option). -/
def cleanRace (c : Cell) : Cell :=
  if pdNotnaStr (astypeStr c) = true ∧ astypeStr c ≠ "nan" then
    Cell.str (subscript0 (extractOne 0 (astypeStr c) raceOptions))
  else Cell.str (astypeStr c)

/-- `Insurance Type` lambda, same shape as `Gender`. -/
def cleanInsurance (c : Cell) : Cell :=
  if pdNotnaStr (astypeStr c) = true ∧ astypeStr c ≠ "nan" then
    Cell.str (subscript0 (extractOne 0 (astypeStr c) insuranceOptions))
  else Cell.str (astypeStr c)

/-- `Marital Status` lambda, same shape as `Gender`. -/
def cleanMarital (c : Cell) : Cell :=
  if pdNotnaStr (astypeStr c) = true ∧ astypeStr c ≠ "nan" then
    Cell.str (subscript0 (extractOne 0 (astypeStr c) maritalOptions))
  else Cell.str (astypeStr c)

/-- Does the text start with the pattern? -/
def startsWithSeq : List Char → List Char → Bool
  | [], _ => true
  | _ :: _, [] => false
  | a :: p, b :: t => a = b && startsWithSeq p t

/-- Python `pat in text` substring containment. -/
def containsSeq (pat : List Char) : List Char → Bool
  | [] => decide (pat = [])
  | b :: rest => startsWithSeq pat (b :: rest) || containsSeq pat rest

/-- `Hispanic/Latino` lambda (no `astype(str)` here, and `pd.notna` sees
the raw cell): `'No'` when `str(x).lower()` contains `non`, else `'Yes'`
for non-null cells, else `NaN`. -/
def cleanHispanic (c : Cell) : Cell :=
  if containsSeq "non".data (pyLower (astypeStr c)).data then Cell.str "No"
  else if pdNotna c then Cell.str "Yes"
  else Cell.na

/-- `Type of Assistance (CLASS)` lambda: fuzzy-match `x.lower()` against
the lower-cased option list (the emitted choice is therefore the
lower-cased option). -/
def cleanAssistance (c : Cell) : Cell :=
  if pdNotnaStr (astypeStr c) = true then
    Cell.str (subscript0
      (extractOne 0 (pyLower (astypeStr c)) (assistanceOptions.map pyLower)))
  else Cell.str (astypeStr c)

/-! ## Derived numeric and date columns -/

/-- The `Income Level` lambda on the annualized income: the chained
conditional of the source; a `NaN` input fails every comparison and falls
through to `pd.NA` (`none`). -/
def incomeLevelOfAnnualized : Option ℚ → Option String
  | none => none
  | some x =>
    if x ≤ 12000 then some "$0–$12,000"
    else if 12000 < x ∧ x ≤ 47000 then some "$12,001–$47,000"
    else if 47000 < x ∧ x ≤ 100000 then some "$47,001–$100,000"
    else if 100000 < x then some "$100,000+"
    else none

/-- `df['Annualized Income'] = monthly * 12` (`NaN` propagates). -/
def annualizedIncome (m : Option ℚ) : Option ℚ := m.map (fun x => x * 12)

/-- Income bracket of a monthly income as the pipeline derives it. -/
def incomeLevelOfMonthly (m : Option ℚ) : Option String :=
  incomeLevelOfAnnualized (annualizedIncome m)

/-- All-digit run to a number. -/
def digitsToNat : List Char → Option Nat
  | [] => none
  | l => if l.all Char.isDigit then
      some (l.foldl (fun acc c => acc * 10 + (c.toNat - 48)) 0)
    else none

/-- Split on a dash, keeping empty segments. -/
def splitDashAux : List Char → List Char → List (List Char)
  | [], acc => [acc.reverse]
  | c :: rest, acc =>
    if c = '-' then acc.reverse :: splitDashAux rest [] else splitDashAux rest (c :: acc)

def splitDash (l : List Char) : List (List Char) := splitDashAux l []

def isLeapYear (y : Nat) : Bool :=
  (y % 4 = 0 && y % 100 ≠ 0) || y % 400 = 0

def daysInMonth (y m : Nat) : Nat :=
  if m = 2 then (if isLeapYear y then 29 else 28)
  else if m = 4 ∨ m = 6 ∨ m = 9 ∨ m = 11 then 30
  else 31

/-- Day number of a civil date (days since 1970-01-01, standard
days-from-civil computation). -/
def daysFromCivil (y m d : Nat) : Int :=
  (let yy : Int := (y : Int) - (if m ≤ 2 then 1 else 0)
   let era : Int := yy / 400
   let yoe : Int := yy - era * 400
   let mp : Int := ((m : Int) + 9) % 12
   let doy : Int := (153 * mp + 2) / 5 + (d : Int) - 1
   let doe : Int := yoe * 365 + yoe / 4 - yoe / 100 + doy
   era * 146097 + doe - 719468)

/-- Modelled subset of `pd.to_datetime(..., errors='coerce')`: an ISO
`YYYY-MM-DD` string parses to its day number; every other string coerces
to `NaT` (`none`).  (pandas accepts further formats; the claims only
exercise ISO dates and clearly unparsable text.) -/
def toDatetimeCoerce (s : String) : Option Int :=
  match splitDash s.data with
  | [ys, ms, ds] =>
    match digitsToNat ys, digitsToNat ms, digitsToNat ds with
    | some y, some m, some d =>
      if 1 ≤ m ∧ m ≤ 12 ∧ 1 ≤ d ∧ d ≤ daysInMonth y m then
        some (daysFromCivil y m d)
      else none
    | _, _, _ => none
  | _ => none

/-- Unsigned decimal literal to an exact rational. -/
def decDigitsToQ : List Char → Option ℚ
  | l =>
    match l.span Char.isDigit with
    | (ip, []) => if ip = [] then none else (digitsToNat ip).map (fun n => (n : ℚ))
    | (ip, '.' :: fp) =>
      if (ip ≠ [] ∨ fp ≠ []) ∧ fp.all Char.isDigit then
        some (((ip.foldl (fun acc c => acc * 10 + (c.toNat - 48)) 0 : Nat) : ℚ) +
          ((fp.foldl (fun acc c => acc * 10 + (c.toNat - 48)) 0 : Nat) : ℚ) / (10 : ℚ) ^ fp.length)
      else none
    | _ => none

/-- Modelled subset of `pd.to_numeric(..., errors='coerce')`: decimal
literals parse exactly; everything else (and a missing cell) coerces to
`NaN` (`none`). -/
def toNumericCoerce (c : Cell) : Option ℚ :=
  match c with
  | Cell.na => none
  | Cell.str s =>
    match s.data with
    | '-' :: rest => (decDigitsToQ (trimWsL rest)).map (fun q => -q)
    | l => decDigitsToQ (trimWsL l)

/-- The `Payment Submitted?`/`Grant Req Date` date columns after
`pd.to_datetime(..., errors='coerce')`. -/
def toDatetimeCell (c : Cell) : Option Int :=
  match c with
  | Cell.na => none
  | Cell.str s => toDatetimeCoerce s

/-- `Time to Support = (Payment Submitted? - Grant Req Date).dt.days`:
the day difference when both dates parsed, `NaN` as soon as either is
`NaT`. -/
def timeToSupport (payment grantReq : Option Int) : Option Int :=
  match payment, grantReq with
  | some p, some g => some (p - g)
  | _, _ => none

/-! ## The whole load-and-clean routine -/

/-- One raw spreadsheet row (the columns the cleaning pass touches). -/
structure Row where
  requestStatus : Cell
  applicationSigned : Cell
  ptState : Cell
  monthlyIncome : Cell
  gender : Cell
  race : Cell
  insuranceType : Cell
  maritalStatus : Cell
  hispanicLatino : Cell
  assistance : Cell
  paymentSubmitted : Cell
  grantReqDate : Cell

/-- One cleaned row, including the derived columns. -/
structure CleanRow where
  requestStatus : Cell
  applicationSigned : Cell
  ptState : Cell
  monthlyIncome : Option ℚ
  incomeLevel : Option String
  gender : Cell
  race : Cell
  insuranceType : Cell
  maritalStatus : Cell
  hispanicLatino : Cell
  assistance : Cell
  paymentSubmitted : Option Int
  grantReqDate : Option Int
  timeToSupport : Option Int

/-- The per-row cleaning pass: the blanket `missing → NaN` replacement of
line 19 followed by each column's normalization and the derived
columns. -/
def cleanRow (r : Row) : CleanRow :=
  { requestStatus := cleanRequestStatus (replaceMissing r.requestStatus)
    applicationSigned := cleanApplicationSigned (replaceMissing r.applicationSigned)
    ptState := cleanPtState (replaceMissing r.ptState)
    monthlyIncome := toNumericCoerce (replaceMissing r.monthlyIncome)
    incomeLevel := incomeLevelOfMonthly (toNumericCoerce (replaceMissing r.monthlyIncome))
    gender := cleanGender (replaceMissing r.gender)
    race := cleanRace (replaceMissing r.race)
    insuranceType := cleanInsurance (replaceMissing r.insuranceType)
    maritalStatus := cleanMarital (replaceMissing r.maritalStatus)
    hispanicLatino := cleanHispanic (replaceMissing r.hispanicLatino)
    assistance := cleanAssistance (replaceMissing r.assistance)
    paymentSubmitted := toDatetimeCell (replaceMissing r.paymentSubmitted)
    grantReqDate := toDatetimeCell (replaceMissing r.grantReqDate)
    timeToSupport := timeToSupport (toDatetimeCell (replaceMissing r.paymentSubmitted))
      (toDatetimeCell (replaceMissing r.grantReqDate)) }

/-- `import_excel_from_github`: on a successful fetch the rows are
cleaned; a `requests` failure is caught and an empty `DataFrame` is
returned (no retry, no cleaning on that run). -/
def importExcelFromGithub (fetchResult : Except String (List Row)) : List CleanRow :=
  match fetchResult with
  | Except.error _ => []
  | Except.ok rows => rows.map cleanRow

/-! ## Field-level helper lemmas -/

theorem dictGet_mem :
    ∀ (l : List (String × String)) (k d : String), k ∈ l.map Prod.fst →
      ∃ p ∈ l, dictGet l k d = p.2 := by
  intro l
  induction l with
  | nil => intro k d h; simp at h
  | cons q rest ih =>
    intro k d h
    obtain ⟨a, b⟩ := q
    rcases em (a = k) with hak | hak
    · exact ⟨(a, b), by simp, by simp [dictGet, hak]⟩
    · have hk : k ∈ rest.map Prod.fst := by
        rcases List.mem_map.mp h with ⟨p, hp, he⟩
        rcases List.mem_cons.mp hp with h1 | h1
        · exact absurd (by rw [h1] at he; exact he) hak
        · exact List.mem_map.mpr ⟨p, h1, he⟩
      obtain ⟨p, hp, he⟩ := ih k d hk
      exact ⟨p, by simp [hp], by simp [dictGet, hak, he]⟩

theorem cleanRequestStatus_of_notMissing (x : String) (hx : pyStrip (pyLower x) ≠ "nan") :
    ∃ o ∈ requestStatusOptions, cleanRequestStatus (Cell.str x) = Cell.str o := by
  unfold cleanRequestStatus
  rw [if_pos ⟨rfl, hx⟩]
  obtain ⟨o, s, he, hm⟩ := extractOne_mem (pyStrip (pyLower x)) requestStatusOptions (by decide)
  exact ⟨o, hm, by rw [show astypeStr (Cell.str x) = x from rfl, he]; rfl⟩

theorem cleanApplicationSigned_mem (c : Cell) :
    ∃ o ∈ applicationSignedOptions, cleanApplicationSigned c = Cell.str o := by
  unfold cleanApplicationSigned
  rw [if_pos (show pdNotnaStr (astypeStr c) = true from rfl)]
  obtain ⟨o, s, he, hm⟩ :=
    extractOne_mem (pyLower (astypeStr c)) applicationSignedOptions (by decide)
  exact ⟨o, hm, by rw [he]; rfl⟩

theorem cleanGender_of_notMissing (x : String) (hx : x ≠ "nan") :
    ∃ o ∈ genderOptions, cleanGender (Cell.str x) = Cell.str o := by
  unfold cleanGender
  rw [if_pos ⟨rfl, hx⟩]
  obtain ⟨o, s, he, hm⟩ := extractOne_mem x genderOptions (by decide)
  exact ⟨o, hm, by rw [show astypeStr (Cell.str x) = x from rfl, he]; rfl⟩

theorem cleanRace_of_notMissing (x : String) (hx : x ≠ "nan") :
    ∃ o ∈ raceOptions, cleanRace (Cell.str x) = Cell.str o := by
  unfold cleanRace
  rw [if_pos ⟨rfl, hx⟩]
  obtain ⟨o, s, he, hm⟩ := extractOne_mem x raceOptions (by decide)
  exact ⟨o, hm, by rw [show astypeStr (Cell.str x) = x from rfl, he]; rfl⟩

theorem cleanInsurance_of_notMissing (x : String) (hx : x ≠ "nan") :
    ∃ o ∈ insuranceOptions, cleanInsurance (Cell.str x) = Cell.str o := by
  unfold cleanInsurance
  rw [if_pos ⟨rfl, hx⟩]
  obtain ⟨o, s, he, hm⟩ := extractOne_mem x insuranceOptions (by decide)
  exact ⟨o, hm, by rw [show astypeStr (Cell.str x) = x from rfl, he]; rfl⟩

theorem cleanMarital_of_notMissing (x : String) (hx : x ≠ "nan") :
    ∃ o ∈ maritalOptions, cleanMarital (Cell.str x) = Cell.str o := by
  unfold cleanMarital
  rw [if_pos ⟨rfl, hx⟩]
  obtain ⟨o, s, he, hm⟩ := extractOne_mem x maritalOptions (by decide)
  exact ⟨o, hm, by rw [show astypeStr (Cell.str x) = x from rfl, he]; rfl⟩

theorem cleanAssistance_mem (c : Cell) :
    ∃ o ∈ assistanceOptions, cleanAssistance c = Cell.str (pyLower o) := by
  unfold cleanAssistance
  rw [if_pos (show pdNotnaStr (astypeStr c) = true from rfl)]
  obtain ⟨o, s, he, hm⟩ :=
    extractOne_mem (pyLower (astypeStr c)) (assistanceOptions.map pyLower) (by decide)
  obtain ⟨o0, ho0, he0⟩ := List.mem_map.mp hm
  exact ⟨o0, ho0, by rw [he]; simp [subscript0, he0]⟩

theorem cleanPtState_of_notMissing (x : String) (hx : x ≠ "nan") :
    ∃ p ∈ stateToPostal, cleanPtState (Cell.str x) = Cell.str p.2 := by
  unfold cleanPtState
  rw [if_pos ⟨rfl, hx⟩]
  obtain ⟨k, s, he, hm⟩ := extractOne_mem x (stateToPostal.map Prod.fst) (by decide)
  obtain ⟨p, hp, he2⟩ := dictGet_mem stateToPostal k x hm
  exact ⟨p, hp, by rw [show astypeStr (Cell.str x) = x from rfl, he]
                   simp [subscript0, he2]⟩

theorem cleanRequestStatus_na_or_mem (c : Cell) :
    cleanRequestStatus c = Cell.na ∨
      ∃ o ∈ requestStatusOptions, cleanRequestStatus c = Cell.str o := by
  rcases em (pyStrip (pyLower (astypeStr c)) = "nan") with h | h
  · left
    unfold cleanRequestStatus
    rw [if_neg (by simp [h])]
  · right
    have := cleanRequestStatus_of_notMissing (astypeStr c) h
    simpa [cleanRequestStatus] using this

theorem cleanGender_nan_or_mem (c : Cell) :
    cleanGender c = Cell.str "nan" ∨ ∃ o ∈ genderOptions, cleanGender c = Cell.str o := by
  rcases em (astypeStr c = "nan") with h | h
  · left
    unfold cleanGender
    rw [if_neg (by simp [h]), h]
  · right
    have := cleanGender_of_notMissing (astypeStr c) h
    simpa [cleanGender] using this

theorem cleanRace_nan_or_mem (c : Cell) :
    cleanRace c = Cell.str "nan" ∨ ∃ o ∈ raceOptions, cleanRace c = Cell.str o := by
  rcases em (astypeStr c = "nan") with h | h
  · left
    unfold cleanRace
    rw [if_neg (by simp [h]), h]
  · right
    have := cleanRace_of_notMissing (astypeStr c) h
    simpa [cleanRace] using this

theorem cleanInsurance_nan_or_mem (c : Cell) :
    cleanInsurance c = Cell.str "nan" ∨
      ∃ o ∈ insuranceOptions, cleanInsurance c = Cell.str o := by
  rcases em (astypeStr c = "nan") with h | h
  · left
    unfold cleanInsurance
    rw [if_neg (by simp [h]), h]
  · right
    have := cleanInsurance_of_notMissing (astypeStr c) h
    simpa [cleanInsurance] using this

theorem cleanMarital_nan_or_mem (c : Cell) :
    cleanMarital c = Cell.str "nan" ∨ ∃ o ∈ maritalOptions, cleanMarital c = Cell.str o := by
  rcases em (astypeStr c = "nan") with h | h
  · left
    unfold cleanMarital
    rw [if_neg (by simp [h]), h]
  · right
    have := cleanMarital_of_notMissing (astypeStr c) h
    simpa [cleanMarital] using this

theorem cleanPtState_nan_or_mem (c : Cell) :
    cleanPtState c = Cell.str "nan" ∨
      ∃ p ∈ stateToPostal, cleanPtState c = Cell.str p.2 := by
  rcases em (astypeStr c = "nan") with h | h
  · left
    unfold cleanPtState
    rw [if_neg (by simp [h]), h]
  · right
    have := cleanPtState_of_notMissing (astypeStr c) h
    simpa [cleanPtState] using this

theorem cleanRequestStatus_self (v : String) (hv : v ∈ requestStatusOptions)
    (hne : fpS v ≠ []) (hq : pyStrip (pyLower v) = v) (hvn : v ≠ "nan")
    (hd : ∀ u ∈ requestStatusOptions, u ≠ v → fpS u ≠ fpS v) :
    cleanRequestStatus (Cell.str v) = Cell.str v := by
  unfold cleanRequestStatus
  simp only [astypeStr]
  rw [hq]
  rw [if_pos ⟨rfl, hvn⟩]
  rw [extractOne_canonical (show (0 : ℚ) ≤ 100 by norm_num) hv hne hd]
  rfl

theorem cleanApplicationSigned_self (v : String) (hv : v ∈ applicationSignedOptions)
    (hne : fpS v ≠ []) (hq : pyLower v = v)
    (hd : ∀ u ∈ applicationSignedOptions, u ≠ v → fpS u ≠ fpS v) :
    cleanApplicationSigned (Cell.str v) = Cell.str v := by
  unfold cleanApplicationSigned
  simp only [astypeStr]
  rw [hq]
  rw [if_pos (show pdNotnaStr v = true from rfl)]
  rw [extractOne_canonical (show (0 : ℚ) ≤ 100 by norm_num) hv hne hd]
  rfl

theorem cleanGender_self (v : String) (hv : v ∈ genderOptions)
    (hne : fpS v ≠ []) (hvn : v ≠ "nan")
    (hd : ∀ u ∈ genderOptions, u ≠ v → fpS u ≠ fpS v) :
    cleanGender (Cell.str v) = Cell.str v := by
  unfold cleanGender
  simp only [astypeStr]
  rw [if_pos ⟨rfl, hvn⟩]
  rw [extractOne_canonical (show (0 : ℚ) ≤ 100 by norm_num) hv hne hd]
  rfl

theorem cleanRace_self (v : String) (hv : v ∈ raceOptions)
    (hne : fpS v ≠ []) (hvn : v ≠ "nan")
    (hd : ∀ u ∈ raceOptions, u ≠ v → fpS u ≠ fpS v) :
    cleanRace (Cell.str v) = Cell.str v := by
  unfold cleanRace
  simp only [astypeStr]
  rw [if_pos ⟨rfl, hvn⟩]
  rw [extractOne_canonical (show (0 : ℚ) ≤ 100 by norm_num) hv hne hd]
  rfl

theorem cleanInsurance_self (v : String) (hv : v ∈ insuranceOptions)
    (hne : fpS v ≠ []) (hvn : v ≠ "nan")
    (hd : ∀ u ∈ insuranceOptions, u ≠ v → fpS u ≠ fpS v) :
    cleanInsurance (Cell.str v) = Cell.str v := by
  unfold cleanInsurance
  simp only [astypeStr]
  rw [if_pos ⟨rfl, hvn⟩]
  rw [extractOne_canonical (show (0 : ℚ) ≤ 100 by norm_num) hv hne hd]
  rfl

theorem cleanMarital_self (v : String) (hv : v ∈ maritalOptions)
    (hne : fpS v ≠ []) (hvn : v ≠ "nan")
    (hd : ∀ u ∈ maritalOptions, u ≠ v → fpS u ≠ fpS v) :
    cleanMarital (Cell.str v) = Cell.str v := by
  unfold cleanMarital
  simp only [astypeStr]
  rw [if_pos ⟨rfl, hvn⟩]
  rw [extractOne_canonical (show (0 : ℚ) ≤ 100 by norm_num) hv hne hd]
  rfl

theorem cleanAssistance_of_lower (x v : String) (hx : pyLower x = v)
    (hv : v ∈ assistanceOptions.map pyLower) (hne : fpS v ≠ [])
    (hd : ∀ u ∈ assistanceOptions.map pyLower, u ≠ v → fpS u ≠ fpS v) :
    cleanAssistance (Cell.str x) = Cell.str v := by
  unfold cleanAssistance
  simp only [astypeStr]
  rw [hx]
  rw [if_pos (show pdNotnaStr x = true from rfl)]
  rw [extractOne_canonical (show (0 : ℚ) ≤ 100 by norm_num) hv hne hd]
  rfl

theorem cleanPtState_maps (p : String × String) (hp : p ∈ stateToPostal) :
    cleanPtState (Cell.str p.1) = Cell.str p.2 := by
  fin_cases hp <;>
  · unfold cleanPtState
    simp only [astypeStr]
    rw [if_pos ⟨rfl, by decide⟩]
    rw [extractOne_canonical (show (0 : ℚ) ≤ 100 by norm_num) (by decide) (by decide)
      (by decide)]
    rfl


/-! ## Zero scores for character-disjoint strings -/

theorem lcsFuel_eq_zero_of_disjoint :
    ∀ (f : Nat) (x y : List Char), (∀ c ∈ x, c ∉ y) → lcsFuel f x y = 0 := by
  intro f
  induction f with
  | zero => intro x y _; cases x <;> cases y <;> rfl
  | succ f ih =>
    intro x y h
    match x, y with
    | [], _ => rfl
    | _ :: _, [] => rfl
    | a :: s, b :: t =>
      have hab : a ≠ b := fun he => h a (by simp) (by simp [he])
      simp only [lcsFuel, if_neg hab]
      rw [ih (a :: s) t (fun c hc hct => h c hc (by simp [hct])),
        ih s (b :: t) (fun c hc => h c (by simp [hc]))]
      simp

theorem lcsL_eq_zero_of_disjoint (x y : List Char) (h : ∀ c ∈ x, c ∉ y) :
    lcsL x y = 0 :=
  lcsFuel_eq_zero_of_disjoint _ x y h

theorem fracScore_zero (d : Nat) : fracScore 0 d = 0 := by
  unfold fracScore
  split
  · rfl
  · simp

theorem ratioQ_zero (x y : List Char) (hx : x ≠ []) (h : ∀ c ∈ x, c ∉ y) :
    ratioQ x y = 0 := by
  unfold ratioQ
  rw [if_neg (fun hc => hx (List.eq_nil_of_length_eq_zero (by omega)))]
  rw [lcsL_eq_zero_of_disjoint x y h]
  simpa using fracScore_zero (x.length + y.length)

theorem foldl_max_init_le : ∀ (l : List ℚ) (init : ℚ), init ≤ l.foldl max init := by
  intro l
  induction l with
  | nil => intro init; exact le_refl _
  | cons x l ih =>
    intro init
    exact le_trans (le_max_left init x) (ih (max init x))

theorem foldl_max_zero (l : List ℚ) (h : ∀ x ∈ l, x = 0) : l.foldl max 0 = 0 :=
  le_antisymm (foldl_max_le l 0 (le_refl 0) (fun x hx => le_of_eq (h x hx)))
    (foldl_max_init_le l 0)

theorem alignWindows_subset (s1 s2 w : List Char) (hw : w ∈ alignWindows s1 s2) :
    ∀ c ∈ w, c ∈ s2 := by
  unfold alignWindows at hw
  rcases List.mem_append.mp hw with hw | hw
  · rcases List.mem_append.mp hw with hw | hw
    · obtain ⟨i, _, rfl⟩ := List.mem_map.mp hw
      exact fun c hc => List.take_subset _ _ hc
    · obtain ⟨i, _, rfl⟩ := List.mem_map.mp hw
      exact fun c hc => List.drop_subset _ _ (List.take_subset _ _ hc)
  · obtain ⟨i, _, rfl⟩ := List.mem_map.mp hw
    exact fun c hc => List.drop_subset _ _ hc

theorem bestWindow_zero (s1 s2 : List Char) (h1 : s1 ≠ [])
    (hd : ∀ c ∈ s1, c ∉ s2) : bestWindow s1 s2 = 0 := by
  unfold bestWindow
  apply foldl_max_zero
  intro x hx
  obtain ⟨w, hw, rfl⟩ := List.mem_map.mp hx
  exact ratioQ_zero s1 w h1
    (fun c hc hcw => hd c hc (alignWindows_subset _ _ w hw c hcw))

theorem windowScore_zero (a b : List Char) (ha : a ≠ []) (hb : b ≠ [])
    (hd : ∀ c ∈ a, c ∉ b) : windowScore a b = 0 := by
  have hd2 : ∀ c ∈ b, c ∉ a := fun c hc hca => hd c hca hc
  unfold windowScore
  split
  · rw [bestWindow_zero a b ha hd, bestWindow_zero b a hb hd2]
    simp
  · split
    · exact bestWindow_zero a b ha hd
    · exact bestWindow_zero b a hb hd2

theorem splitWsAux_subset : ∀ (l acc t : List Char),
    t ∈ splitWsAux l acc → ∀ c ∈ t, c ∈ l ∨ c ∈ acc := by
  intro l
  induction l with
  | nil =>
    intro acc t ht c hc
    by_cases hacc : acc = []
    · simp [splitWsAux, hacc] at ht
    · simp only [splitWsAux, if_neg hacc, List.mem_singleton] at ht
      subst ht
      exact Or.inr (List.mem_reverse.mp hc)
  | cons d rest ih =>
    intro acc t ht c hc
    simp only [splitWsAux] at ht
    by_cases hd : d = ' '
    · rw [if_pos hd] at ht
      by_cases hacc : acc = []
      · rw [if_pos hacc] at ht
        rcases ih [] t ht c hc with h | h
        · exact Or.inl (by simp [h])
        · simp at h
      · rw [if_neg hacc] at ht
        rcases List.mem_cons.mp ht with h | h
        · subst h
          exact Or.inr (List.mem_reverse.mp hc)
        · rcases ih [] t h c hc with h2 | h2
          · exact Or.inl (by simp [h2])
          · simp at h2
    · rw [if_neg hd] at ht
      rcases ih (d :: acc) t ht c hc with h | h
      · exact Or.inl (by simp [h])
      · rcases List.mem_cons.mp h with h2 | h2
        · exact Or.inl (by simp [h2])
        · exact Or.inr h2

theorem splitWs_subset (l t : List Char) (ht : t ∈ splitWs l) : ∀ c ∈ t, c ∈ l :=
  fun c hc => (splitWsAux_subset l [] t ht c hc).resolve_right (by simp)

theorem splitWsAux_ne_nil : ∀ (l acc t : List Char), t ∈ splitWsAux l acc → t ≠ [] := by
  intro l
  induction l with
  | nil =>
    intro acc t ht
    by_cases hacc : acc = []
    · simp [splitWsAux, hacc] at ht
    · simp only [splitWsAux, if_neg hacc, List.mem_singleton] at ht
      subst ht
      simpa using hacc
  | cons d rest ih =>
    intro acc t ht
    simp only [splitWsAux] at ht
    by_cases hd : d = ' '
    · rw [if_pos hd] at ht
      by_cases hacc : acc = []
      · rw [if_pos hacc] at ht
        exact ih [] t ht
      · rw [if_neg hacc] at ht
        rcases List.mem_cons.mp ht with h | h
        · subst h
          simpa using hacc
        · exact ih [] t h
    · rw [if_neg hd] at ht
      exact ih (d :: acc) t ht

theorem splitWsAux_all_nonspace : ∀ (l acc : List Char), (∀ c ∈ l, c ≠ ' ') →
    splitWsAux l acc =
      if acc.reverse ++ l = [] then [] else [acc.reverse ++ l] := by
  intro l
  induction l with
  | nil =>
    intro acc _
    simp only [splitWsAux, List.append_nil]
    by_cases hacc : acc = []
    · simp [hacc]
    · simp [hacc]
  | cons d rest ih =>
    intro acc h
    have hd : d ≠ ' ' := h d (by simp)
    simp only [splitWsAux, if_neg hd]
    rw [ih (d :: acc) (fun c hc => h c (by simp [hc]))]
    have he : (d :: acc).reverse ++ rest = acc.reverse ++ d :: rest := by simp
    rw [he]

theorem splitWs_single (l : List Char) (hl : l ≠ []) (h : ∀ c ∈ l, c ≠ ' ') :
    splitWs l = [l] := by
  unfold splitWs
  rw [splitWsAux_all_nonspace l [] h]
  simp [hl]

theorem insertTok_mem : ∀ (y : List Char) (l : List (List Char)) (t : List Char),
    t ∈ insertTok y l → t = y ∨ t ∈ l := by
  intro y l
  induction l with
  | nil =>
    intro t ht
    simp only [insertTok, List.mem_singleton] at ht
    exact Or.inl ht
  | cons x r ih =>
    intro t ht
    simp only [insertTok] at ht
    split at ht
    · rcases List.mem_cons.mp ht with h | h
      · exact Or.inl h
      · exact Or.inr h
    · rcases List.mem_cons.mp ht with h | h
      · exact Or.inr (by simp [h])
      · rcases ih t h with h2 | h2
        · exact Or.inl h2
        · exact Or.inr (by simp [h2])

theorem sortToks_subset : ∀ (l : List (List Char)) (t : List Char),
    t ∈ sortToks l → t ∈ l := by
  intro l
  induction l with
  | nil => intro t ht; simp [sortToks] at ht
  | cons x r ih =>
    intro t ht
    have h0 : t ∈ insertTok x (sortToks r) := ht
    rcases insertTok_mem x (sortToks r) t h0 with h | h
    · simp [h]
    · exact List.mem_cons.mpr (Or.inr (ih t h))

theorem dedupAdj_subset : ∀ (l : List (List Char)) (t : List Char),
    t ∈ dedupAdj l → t ∈ l := by
  intro l
  induction l using dedupAdj.induct with
  | case1 => intro t ht; simp [dedupAdj] at ht
  | case2 x => intro t ht; simpa [dedupAdj] using ht
  | case3 y r ih =>
    intro t ht
    simp only [dedupAdj, if_pos rfl] at ht
    exact List.mem_cons.mpr (Or.inr (ih t ht))
  | case4 x y r hxy ih =>
    intro t ht
    simp only [dedupAdj, if_neg hxy] at ht
    rcases List.mem_cons.mp ht with h | h
    · simp [h]
    · exact List.mem_cons.mpr (Or.inr (ih t h))

theorem uniqueSorted_subset (l : List (List Char)) (t : List Char)
    (ht : t ∈ uniqueSorted l) : t ∈ l :=
  sortToks_subset l t (dedupAdj_subset (sortToks l) t ht)

theorem joinSp_chars : ∀ (ts : List (List Char)) (c : Char),
    c ∈ joinSp ts → c = ' ' ∨ ∃ t ∈ ts, c ∈ t := by
  intro ts
  induction ts using joinSp.induct with
  | case1 => intro c hc; simp [joinSp] at hc
  | case2 t => intro c hc; exact Or.inr ⟨t, by simp, by simpa [joinSp] using hc⟩
  | case3 t r hr ih =>
    intro c hc
    obtain ⟨y, r2, rfl⟩ := List.exists_cons_of_ne_nil (fun he => hr he)
    simp only [joinSp] at hc
    rcases List.mem_append.mp hc with h | h
    · exact Or.inr ⟨t, by simp, h⟩
    · rcases List.mem_cons.mp h with h2 | h2
      · exact Or.inl h2
      · rcases ih c h2 with h3 | ⟨t2, ht2, hct2⟩
        · exact Or.inl h3
        · exact Or.inr ⟨t2, by simp [ht2], hct2⟩

theorem insertTok_ne_nil (y : List Char) (l : List (List Char)) :
    insertTok y l ≠ [] := by
  cases l with
  | nil => simp [insertTok]
  | cons x r =>
    simp only [insertTok]
    split <;> simp

theorem sortToks_ne_nil (l : List (List Char)) (hl : l ≠ []) : sortToks l ≠ [] := by
  cases l with
  | nil => exact absurd rfl hl
  | cons x r => exact insertTok_ne_nil x (sortToks r)

theorem dedupAdj_ne_nil : ∀ (l : List (List Char)), l ≠ [] → dedupAdj l ≠ [] := by
  intro l
  induction l using dedupAdj.induct with
  | case1 => intro h; exact absurd rfl h
  | case2 x => intro _; simp [dedupAdj]
  | case3 y r ih =>
    intro _
    simp only [dedupAdj, if_pos rfl]
    exact ih (by simp)
  | case4 x y r hxy ih =>
    intro _
    simp [dedupAdj, if_neg hxy]

theorem joinSp_ne_nil : ∀ (ts : List (List Char)), ts ≠ [] →
    (∀ t ∈ ts, t ≠ []) → joinSp ts ≠ [] := by
  intro ts
  match ts with
  | [] => intro h _; exact absurd rfl h
  | [t] => intro _ h2; simpa [joinSp] using h2 t (by simp)
  | t :: y :: r =>
    intro _ h2
    simp [joinSp]

theorem tokenSetCore_zero (al bl : Nat) : tokenSetCore 0 al bl 0 = 0 := by
  have hs : sectOne 0 = 0 := rfl
  simp only [tokenSetCore, hs]
  have h1 : (0 + 0 + al) + (0 + 0 + bl) - (al + bl - 2 * 0) = 0 := by omega
  have h2 : 0 + (0 + 0 + al) - (0 + al) = 0 := by omega
  have h3 : 0 + (0 + 0 + bl) - (0 + bl) = 0 := by omega
  rw [h1, h2, h3, fracScore_zero, fracScore_zero, fracScore_zero]
  simp

theorem tokenSortScore_zero (a b : List Char) (ha : a ≠ [])
    (hasp : ∀ c ∈ a, c ≠ ' ') (hd : ∀ c ∈ a, c ∉ b) : tokenSortScore a b = 0 := by
  unfold tokenSortScore
  rw [splitWs_single a ha hasp]
  have hsort : sortToks [a] = [a] := rfl
  have hjoin : joinSp [a] = a := rfl
  rw [hsort, hjoin]
  apply ratioQ_zero a _ ha
  intro c hc hcj
  rcases joinSp_chars _ c hcj with h | ⟨t, ht, hct⟩
  · exact hasp c hc h
  · exact hd c hc (splitWs_subset b t (sortToks_subset _ t ht) c hct)

theorem notMem_uniqueSorted_of_disjoint (a b : List Char) (ha : a ≠ [])
    (hd : ∀ c ∈ a, c ∉ b) : a ∉ uniqueSorted (splitWs b) := by
  intro hmem
  match a, ha, hd with
  | c :: s, _, hd =>
    exact hd c (by simp)
      (splitWs_subset b _ (uniqueSorted_subset _ _ hmem) c (by simp))

theorem tokenSetScore_zero (a b : List Char) (ha : a ≠ [])
    (hasp : ∀ c ∈ a, c ≠ ' ') (hd : ∀ c ∈ a, c ∉ b) : tokenSetScore a b = 0 := by
  have hta : uniqueSorted (splitWs a) = [a] := by
    rw [splitWs_single a ha hasp]
    rfl
  have hna : a ∉ uniqueSorted (splitWs b) := notMem_uniqueSorted_of_disjoint a b ha hd
  have hcont : (uniqueSorted (splitWs b)).contains a = false := by
    simpa using hna
  unfold tokenSetScore
  rw [hta]
  have hsect : ([a] : List (List Char)).filter
      (fun x => (uniqueSorted (splitWs b)).contains x) = [] := by
    simp [List.filter, hna]
  have hdab : ([a] : List (List Char)).filter
      (fun x => !(uniqueSorted (splitWs b)).contains x) = [a] := by
    simp [List.filter, hna]
  rw [hsect, hdab]
  by_cases hub : uniqueSorted (splitWs b) = []
  · rw [if_pos (Or.inr hub)]
  · rw [if_neg (by
      rintro (h | h)
      · simp at h
      · exact hub h)]
    rw [if_neg (by rintro ⟨h, -⟩; exact h rfl)]
    have hja : joinSp [a] = a := rfl
    rw [hja]
    have hlcs : lcsL a (joinSp ((uniqueSorted (splitWs b)).filter
        (fun x => !([a] : List (List Char)).contains x))) = 0 := by
      apply lcsL_eq_zero_of_disjoint
      intro c hc hcj
      rcases joinSp_chars _ c hcj with h | ⟨t, ht, hct⟩
      · exact hasp c hc h
      · exact hd c hc (splitWs_subset b t
          (uniqueSorted_subset _ t (List.mem_filter.mp ht).1) c hct)
    rw [hlcs]
    have hj0 : (joinSp ([] : List (List Char))).length = 0 := rfl
    rw [hj0]
    exact tokenSetCore_zero _ _

theorem windowTokenScore_zero (a b : List Char) (ha : a ≠ [])
    (hasp : ∀ c ∈ a, c ≠ ' ') (htb : splitWs b ≠ [])
    (hd : ∀ c ∈ a, c ∉ b) : windowTokenScore a b = 0 := by
  have hta : uniqueSorted (splitWs a) = [a] := by
    rw [splitWs_single a ha hasp]
    rfl
  have hna : a ∉ uniqueSorted (splitWs b) := notMem_uniqueSorted_of_disjoint a b ha hd
  have hcont : (uniqueSorted (splitWs b)).contains a = false := by
    simpa using hna
  unfold windowTokenScore
  rw [hta]
  have hsect : ([a] : List (List Char)).filter
      (fun x => (uniqueSorted (splitWs b)).contains x) = [] := by
    simp [List.filter, hna]
  rw [hsect]
  rw [if_neg (by simp)]
  have hjs1 : joinSp (sortToks (splitWs a)) = a := by
    rw [splitWs_single a ha hasp]
    rfl
  have hsub1 : ∀ c ∈ a, c ∉ joinSp (sortToks (splitWs b)) := by
    intro c hc hcj
    rcases joinSp_chars _ c hcj with h | ⟨t, ht, hct⟩
    · exact hasp c hc h
    · exact hd c hc (splitWs_subset b t (sortToks_subset _ t ht) c hct)
  have hne1 : joinSp (sortToks (splitWs b)) ≠ [] :=
    joinSp_ne_nil _ (sortToks_ne_nil _ htb)
      (fun t ht => splitWsAux_ne_nil b [] t (sortToks_subset _ t ht))
  have hW1 : windowScore (joinSp (sortToks (splitWs a)))
      (joinSp (sortToks (splitWs b))) = 0 := by
    rw [hjs1]
    exact windowScore_zero _ _ ha hne1 hsub1
  have hju : joinSp [a] = a := rfl
  have hsub2 : ∀ c ∈ a, c ∉ joinSp (uniqueSorted (splitWs b)) := by
    intro c hc hcj
    rcases joinSp_chars _ c hcj with h | ⟨t, ht, hct⟩
    · exact hasp c hc h
    · exact hd c hc (splitWs_subset b t (uniqueSorted_subset _ t ht) c hct)
  have hne2 : joinSp (uniqueSorted (splitWs b)) ≠ [] :=
    joinSp_ne_nil _ (dedupAdj_ne_nil _ (sortToks_ne_nil _ htb))
      (fun t ht => splitWsAux_ne_nil b [] t (uniqueSorted_subset _ t ht))
  have hW2 : windowScore (joinSp [a]) (joinSp (uniqueSorted (splitWs b))) = 0 := by
    rw [hju]
    exact windowScore_zero _ _ ha hne2 hsub2
  split
  · rw [hW1, hW2]
    simp
  · exact hW1

theorem wratioP_zero (a b : List Char) (ha : a ≠ []) (hb : b ≠ [])
    (hasp : ∀ c ∈ a, c ≠ ' ') (htb : splitWs b ≠ [])
    (hd : ∀ c ∈ a, c ∉ b) : wratioP a b = 0 := by
  have hbase := ratioQ_zero a b ha hd
  have htok : tokenScore a b = 0 := by
    unfold tokenScore
    rw [tokenSortScore_zero a b ha hasp hd, tokenSetScore_zero a b ha hasp hd]
    simp
  have hwin := windowScore_zero a b ha hb hd
  have hwtok := windowTokenScore_zero a b ha hasp htb hd
  unfold wratioP
  rw [if_neg (by
    rintro (h | h)
    · exact ha (List.eq_nil_of_length_eq_zero h)
    · exact hb (List.eq_nil_of_length_eq_zero h))]
  split
  · rw [hbase, htok]
    simp
  · split
    · rw [hbase, hwin, hwtok]
      simp
    · rw [hbase, hwin, hwtok]
      simp

theorem wratio_zero (q u : String) (ha : fpS q ≠ []) (hb : fpS u ≠ [])
    (hasp : ∀ c ∈ fpS q, c ≠ ' ') (htb : splitWs (fpS u) ≠ [])
    (hd : ∀ c ∈ fpS q, c ∉ fpS u) : wratio q u = 0 :=
  wratioP_zero _ _ ha hb hasp htb hd

theorem extractOne_head_zero (q c : String) (l : List String)
    (hc : wratio q c = 0) (hl : ∀ u ∈ l, wratio q u ≤ 0) :
    extractOne 0 q (c :: l) = some (c, 0) := by
  unfold extractOne
  simp only [List.foldl_cons]
  have hstep : extractStep q 0 none c = some (c, 0) := by
    simp only [extractStep]
    rw [hc]
    simp
  rw [hstep]
  exact foldl_keep_of_le q 0 (c, 0) l hl

/-! ## Claims -/

/-- C1 (counterexample): the claim says a best score below the threshold
(default 60) falls back to the default `NaN`; but for the raw value `zzz`
every request status option scores 0 — far below 60 — and the code still
emits `pending`.  No threshold exists at the call site. -/
theorem claim1_counterexample :
    cleanRequestStatus (Cell.str "zzz") = Cell.str "pending" ∧
    wratio "zzz" "pending" = 0 ∧ wratio "zzz" "approved" = 0 ∧
    wratio "zzz" "denied" = 0 ∧ wratio "zzz" "completed" = 0 ∧
    (0 : ℚ) < 60 ∧ cleanRequestStatus (Cell.str "zzz") ≠ Cell.na := by
  have h1 : wratio "zzz" "pending" = 0 :=
    wratio_zero _ _ (by decide) (by decide) (by decide) (by decide) (by decide)
  have h2 : wratio "zzz" "approved" = 0 :=
    wratio_zero _ _ (by decide) (by decide) (by decide) (by decide) (by decide)
  have h3 : wratio "zzz" "denied" = 0 :=
    wratio_zero _ _ (by decide) (by decide) (by decide) (by decide) (by decide)
  have h4 : wratio "zzz" "completed" = 0 :=
    wratio_zero _ _ (by decide) (by decide) (by decide) (by decide) (by decide)
  have hE : extractOne 0 "zzz" requestStatusOptions = some ("pending", 0) := by
    show extractOne 0 "zzz" ("pending" :: ["approved", "denied", "completed"]) = _
    refine extractOne_head_zero _ _ _ h1 ?_
    intro u hu
    rcases List.mem_cons.mp hu with h | h
    · rw [h, h2]
    · rcases List.mem_cons.mp h with h | h
      · rw [h, h3]
      · rcases List.mem_cons.mp h with h | h
        · rw [h, h4]
        · simp at h
  have hq : pyStrip (pyLower "zzz") = "zzz" := by decide
  have hmain : cleanRequestStatus (Cell.str "zzz") = Cell.str "pending" := by
    unfold cleanRequestStatus
    simp only [astypeStr]
    rw [hq]
    rw [if_pos ⟨rfl, by decide⟩]
    rw [hE]
    rfl
  refine ⟨hmain, h1, h2, h3, h4, by norm_num, ?_⟩
  rw [hmain]
  exact fun hc => Cell.noConfusion hc

/-- C1 (amended): the code passes no `score_cutoff`, so for every
non-missing raw value the best-scoring canonical option is emitted
regardless of its score and the default `NaN` appears only for missing
values; the threshold-60 acceptance boundary of the claim does not exist
in the code. -/
theorem claim1_amended :
    (∀ x : String, pyStrip (pyLower x) ≠ "nan" →
      ∃ o ∈ requestStatusOptions, cleanRequestStatus (Cell.str x) = Cell.str o) ∧
    (∀ x : String, x ≠ "nan" →
      ∃ o ∈ genderOptions, cleanGender (Cell.str x) = Cell.str o) :=
  ⟨cleanRequestStatus_of_notMissing, cleanGender_of_notMissing⟩

/-- C1 (witness for the amended claim) at the input `zzz`. -/
theorem claim1_witness :
    pyStrip (pyLower "zzz") ≠ "nan" ∧
    ∃ o ∈ requestStatusOptions, cleanRequestStatus (Cell.str "zzz") = Cell.str o :=
  ⟨by decide, claim1_amended.1 "zzz" (by decide)⟩

/-- C2 (counterexample): for the `Type of Assistance (CLASS)` field the
raw value `GAS` is normalized to `gas` — the lower-cased option — which is
not a member of the configured canonical option set, not the default, not
the missing marker, and not the raw value either. -/
theorem claim2_counterexample :
    cleanAssistance (Cell.str "GAS") = Cell.str "gas" ∧
    "gas" ∉ assistanceOptions ∧ Cell.str "gas" ≠ Cell.na ∧ "gas" ≠ "GAS" := by
  refine ⟨?_, by decide, fun hc => Cell.noConfusion hc, by decide⟩
  exact cleanAssistance_of_lower "GAS" "gas" (by decide) (by decide) (by decide)
    (by decide)

/-- C2 (amended): for Request Status the output is a canonical option or
`NaN`; for Application Signed? always a canonical option; for Gender,
Race, Insurance Type and Marital Status a canonical option or the
stringified missing value `nan`; for Type of Assistance the lower-cased
canonical option; for Pt State a postal code of the lookup table or the
stringified missing value `nan`. -/
theorem claim2_amended :
    (∀ c : Cell, cleanRequestStatus c = Cell.na ∨
      ∃ o ∈ requestStatusOptions, cleanRequestStatus c = Cell.str o) ∧
    (∀ c : Cell, ∃ o ∈ applicationSignedOptions, cleanApplicationSigned c = Cell.str o) ∧
    (∀ c : Cell, cleanGender c = Cell.str "nan" ∨
      ∃ o ∈ genderOptions, cleanGender c = Cell.str o) ∧
    (∀ c : Cell, cleanRace c = Cell.str "nan" ∨
      ∃ o ∈ raceOptions, cleanRace c = Cell.str o) ∧
    (∀ c : Cell, cleanInsurance c = Cell.str "nan" ∨
      ∃ o ∈ insuranceOptions, cleanInsurance c = Cell.str o) ∧
    (∀ c : Cell, cleanMarital c = Cell.str "nan" ∨
      ∃ o ∈ maritalOptions, cleanMarital c = Cell.str o) ∧
    (∀ c : Cell, ∃ o ∈ assistanceOptions, cleanAssistance c = Cell.str (pyLower o)) ∧
    (∀ c : Cell, cleanPtState c = Cell.str "nan" ∨
      ∃ p ∈ stateToPostal, cleanPtState c = Cell.str p.2) :=
  ⟨cleanRequestStatus_na_or_mem, cleanApplicationSigned_mem, cleanGender_nan_or_mem,
   cleanRace_nan_or_mem, cleanInsurance_nan_or_mem, cleanMarital_nan_or_mem,
   cleanAssistance_mem, cleanPtState_nan_or_mem⟩

/-- C3 (counterexample): the unmappable state string `zzz` — best score 0
against every state name — is not returned unchanged; the code emits `NE`,
the postal code of the first-listed state. -/
theorem claim3_counterexample :
    extractOne 0 "zzz" (stateToPostal.map Prod.fst) = some ("Nebraska", 0) ∧
    cleanPtState (Cell.str "zzz") = Cell.str "NE" ∧
    Cell.str "NE" ≠ Cell.str "zzz" := by
  have hz : ∀ u ∈ ["Iowa", "Kansas", "Missouri", "South Dakota", "Wyoming",
      "Colorado", "Minnesota"], wratio "zzz" u = 0 := by
    intro u hu
    fin_cases hu <;>
      exact wratio_zero _ _ (by decide) (by decide) (by decide) (by decide) (by decide)
  have hE : extractOne 0 "zzz" (stateToPostal.map Prod.fst) = some ("Nebraska", 0) := by
    show extractOne 0 "zzz" ("Nebraska" :: ["Iowa", "Kansas", "Missouri",
      "South Dakota", "Wyoming", "Colorado", "Minnesota"]) = _
    refine extractOne_head_zero _ _ _
      (wratio_zero _ _ (by decide) (by decide) (by decide) (by decide) (by decide)) ?_
    intro u hu
    rw [hz u hu]
  refine ⟨hE, ?_, by decide⟩
  unfold cleanPtState
  simp only [astypeStr]
  rw [if_pos ⟨rfl, by decide⟩]
  rw [hE]
  rfl

/-- C3 (amended): the `dict.get` fallback to the raw value is dead code —
`extractOne` always returns a key of the lookup table, so every
non-missing raw value maps to some postal code; only the stringified
missing value `nan` passes through unchanged. -/
theorem claim3_amended (x : String) (hx : x ≠ "nan") :
    ∃ p ∈ stateToPostal, cleanPtState (Cell.str x) = Cell.str p.2 :=
  cleanPtState_of_notMissing x hx

/-- C3 (witness for the amended claim) at the input `Omaha`. -/
theorem claim3_witness :
    ("Omaha" : String) ≠ "nan" ∧
    ∃ p ∈ stateToPostal, cleanPtState (Cell.str "Omaha") = Cell.str p.2 :=
  ⟨by decide, claim3_amended "Omaha" (by decide)⟩

/-- C4 (code evaluation at the failing input): a missing
`Application Signed?` value is stringified to `nan` and fuzzy-matched, so
the output is a lower-cased canonical option — not the literal `N/A` of
the unreachable fallback branch and not the missing marker.  A literal
`Missing` cell (replaced by `NaN` in the blanket pass) fails the same
way. -/
theorem claim4_evaluation :
    (∃ o ∈ applicationSignedOptions, cleanApplicationSigned Cell.na = Cell.str o) ∧
    cleanApplicationSigned Cell.na ≠ Cell.str "N/A" ∧
    cleanApplicationSigned Cell.na ≠ Cell.na ∧
    cleanApplicationSigned (replaceMissing (Cell.str "Missing")) ≠ Cell.str "N/A" := by
  obtain ⟨o, ho, he⟩ := cleanApplicationSigned_mem Cell.na
  have hne : Cell.str o ≠ Cell.str "N/A" := by
    intro hc
    have ho2 : o = "N/A" := by injection hc
    subst ho2
    revert ho
    decide
  have hrm : replaceMissing (Cell.str "Missing") = Cell.na := by decide
  refine ⟨⟨o, ho, he⟩, ?_, ?_, ?_⟩
  · rw [he]; exact hne
  · rw [he]; exact fun hc => Cell.noConfusion hc
  · rw [hrm, he]; exact hne

/-- C5 (counterexample): `Type of Assistance (CLASS)` does not preserve
the stored canonical casing — the canonical value `Gas` itself is emitted
as the lower-cased option `gas`. -/
theorem claim5_counterexample :
    cleanAssistance (Cell.str "Gas") = Cell.str "gas" ∧
    Cell.str "gas" ≠ Cell.str "Gas" ∧ "Gas" ∈ assistanceOptions := by
  refine ⟨?_, by decide, by decide⟩
  exact cleanAssistance_of_lower "Gas" "gas" (by decide) (by decide) (by decide)
    (by decide)

/-- C5 (amended): a matched value is emitted exactly as stored in the
list handed to `extractOne`: for Race that list is the canonical options
in their original casing (`White` and `Asian` come back unchanged), while
for Type of Assistance the list is lower-cased first, so the output is
the lower-cased canonical option. -/
theorem claim5_amended :
    (∀ x : String, x ≠ "nan" →
      ∃ o ∈ raceOptions, cleanRace (Cell.str x) = Cell.str o) ∧
    cleanRace (Cell.str "White") = Cell.str "White" ∧
    cleanRace (Cell.str "Asian") = Cell.str "Asian" ∧
    (∀ c : Cell, ∃ o ∈ assistanceOptions, cleanAssistance c = Cell.str (pyLower o)) := by
  refine ⟨cleanRace_of_notMissing, ?_, ?_, cleanAssistance_mem⟩
  · exact cleanRace_self "White" (by decide) (by decide) (by decide) (by decide)
  · exact cleanRace_self "Asian" (by decide) (by decide) (by decide) (by decide)

/-- C5 (witness for the amended claim) at the input `White`. -/
theorem claim5_witness :
    ("White" : String) ≠ "nan" ∧
    ∃ o ∈ raceOptions, cleanRace (Cell.str "White") = Cell.str o :=
  ⟨by decide, claim5_amended.1 "White" (by decide)⟩

/-- C6: when the spreadsheet fetch fails, the caught exception makes
`import_excel_from_github` return an empty dataset: no row is cleaned, no
match is computed, and the single fetch is not retried. -/
theorem claim6 : ∀ e : String, importExcelFromGithub (Except.error e) = [] :=
  fun _ => rfl

/-- C7: the income bracket annualizes the monthly income (times 12) and
buckets it into the four half-open ranges of the claim; a missing or
unparsable income yields a missing bracket. -/
theorem claim7 :
    (∀ m : ℚ, m * 12 ≤ 12000 →
      incomeLevelOfMonthly (some m) = some "$0–$12,000") ∧
    (∀ m : ℚ, 12000 < m * 12 → m * 12 ≤ 47000 →
      incomeLevelOfMonthly (some m) = some "$12,001–$47,000") ∧
    (∀ m : ℚ, 47000 < m * 12 → m * 12 ≤ 100000 →
      incomeLevelOfMonthly (some m) = some "$47,001–$100,000") ∧
    (∀ m : ℚ, 100000 < m * 12 →
      incomeLevelOfMonthly (some m) = some "$100,000+") ∧
    incomeLevelOfMonthly none = none := by
  refine ⟨?_, ?_, ?_, ?_, rfl⟩
  · intro m h
    show incomeLevelOfAnnualized (some (m * 12)) = _
    simp only [incomeLevelOfAnnualized]
    rw [if_pos h]
  · intro m h1 h2
    show incomeLevelOfAnnualized (some (m * 12)) = _
    simp only [incomeLevelOfAnnualized]
    rw [if_neg (by linarith), if_pos ⟨h1, h2⟩]
  · intro m h1 h2
    show incomeLevelOfAnnualized (some (m * 12)) = _
    simp only [incomeLevelOfAnnualized]
    rw [if_neg (by linarith), if_neg (by rintro ⟨-, hc⟩; linarith), if_pos ⟨h1, h2⟩]
  · intro m h
    show incomeLevelOfAnnualized (some (m * 12)) = _
    simp only [incomeLevelOfAnnualized]
    rw [if_neg (by linarith), if_neg (by rintro ⟨-, hc⟩; linarith),
      if_neg (by rintro ⟨-, hc⟩; linarith), if_pos h]

/-- C7 (witness): a monthly income of 1000 annualizes to exactly 12000
and lands in the lowest bracket (the boundary is inclusive). -/
theorem claim7_witness :
    (1000 : ℚ) * 12 ≤ 12000 ∧
    incomeLevelOfMonthly (some 1000) = some "$0–$12,000" :=
  ⟨by norm_num, claim7.1 1000 (by norm_num)⟩

/-- C8: `Time to Support` is the day difference of the two parsed dates —
`2024-01-10` minus `2024-01-01` gives 9 — and an unparsable date on either
side makes the result missing instead of raising. -/
theorem claim8 :
    (∀ p g : Int, timeToSupport (some p) (some g) = some (p - g)) ∧
    timeToSupport (toDatetimeCoerce "2024-01-10") (toDatetimeCoerce "2024-01-01") =
      some 9 ∧
    (∀ (s : String) (d : Option Int), toDatetimeCoerce s = none →
      timeToSupport (toDatetimeCoerce s) d = none) ∧
    (∀ (s : String) (d : Option Int), toDatetimeCoerce s = none →
      timeToSupport d (toDatetimeCoerce s) = none) := by
  refine ⟨fun p g => rfl, by decide, ?_, ?_⟩
  · intro s d h
    rw [h]
    cases d <;> rfl
  · intro s d h
    rw [h]
    cases d <;> rfl

/-- C8 (witness): the unparsable date string `notadate` coerces to `NaT`
and poisons the difference to a missing value. -/
theorem claim8_witness :
    toDatetimeCoerce "notadate" = none ∧
    timeToSupport (toDatetimeCoerce "notadate") (some 0) = none :=
  ⟨by decide, claim8.2.2.1 "notadate" (some 0) (by decide)⟩

/-- C9 (counterexample): idempotence fails for `Type of Assistance
(CLASS)`: the canonical value `Food/Groceries` (self-similarity 100) is
nevertheless changed to the lower-cased `food/groceries`. -/
theorem claim9_counterexample :
    cleanAssistance (Cell.str "Food/Groceries") = Cell.str "food/groceries" ∧
    Cell.str "food/groceries" ≠ Cell.str "Food/Groceries" ∧
    "Food/Groceries" ∈ assistanceOptions := by
  refine ⟨?_, by decide, by decide⟩
  exact cleanAssistance_of_lower "Food/Groceries" "food/groceries" (by decide)
    (by decide) (by decide) (by decide)

/-- C9 (amended): on the list actually handed to `extractOne`, an
already-listed value self-scores exactly 100 and is returned unchanged
for every cutoff at most 100; the cleaning lambdas therefore fix every
member of their option lists for Request Status, Application Signed?,
Gender, Race, Insurance Type and Marital Status — while for Type of
Assistance this holds for the lower-cased option list (the stored
mixed-case options are lower-cased rather than preserved). -/
theorem claim9_amended : ∀ t : ℚ, t ≤ 100 →
    (∀ v ∈ requestStatusOptions, extractOne t v requestStatusOptions = some (v, 100) ∧
      cleanRequestStatus (Cell.str v) = Cell.str v) ∧
    (∀ v ∈ applicationSignedOptions,
      extractOne t v applicationSignedOptions = some (v, 100) ∧
      cleanApplicationSigned (Cell.str v) = Cell.str v) ∧
    (∀ v ∈ genderOptions, extractOne t v genderOptions = some (v, 100) ∧
      cleanGender (Cell.str v) = Cell.str v) ∧
    (∀ v ∈ raceOptions, extractOne t v raceOptions = some (v, 100) ∧
      cleanRace (Cell.str v) = Cell.str v) ∧
    (∀ v ∈ insuranceOptions, extractOne t v insuranceOptions = some (v, 100) ∧
      cleanInsurance (Cell.str v) = Cell.str v) ∧
    (∀ v ∈ maritalOptions, extractOne t v maritalOptions = some (v, 100) ∧
      cleanMarital (Cell.str v) = Cell.str v) ∧
    (∀ v ∈ assistanceOptions.map pyLower,
      extractOne t v (assistanceOptions.map pyLower) = some (v, 100) ∧
      cleanAssistance (Cell.str v) = Cell.str v) := by
  intro t ht
  refine ⟨?_, ?_, ?_, ?_, ?_, ?_, ?_⟩
  · intro v hv
    have H : ∀ v ∈ requestStatusOptions, fpS v ≠ [] ∧ pyStrip (pyLower v) = v ∧
        v ≠ "nan" ∧ ∀ u ∈ requestStatusOptions, u ≠ v → fpS u ≠ fpS v := by decide
    obtain ⟨h1, h2, h3, h4⟩ := H v hv
    exact ⟨extractOne_canonical ht hv h1 h4,
      cleanRequestStatus_self v hv h1 h2 h3 h4⟩
  · intro v hv
    have H : ∀ v ∈ applicationSignedOptions, fpS v ≠ [] ∧ pyLower v = v ∧
        ∀ u ∈ applicationSignedOptions, u ≠ v → fpS u ≠ fpS v := by decide
    obtain ⟨h1, h2, h3⟩ := H v hv
    exact ⟨extractOne_canonical ht hv h1 h3,
      cleanApplicationSigned_self v hv h1 h2 h3⟩
  · intro v hv
    have H : ∀ v ∈ genderOptions, fpS v ≠ [] ∧ v ≠ "nan" ∧
        ∀ u ∈ genderOptions, u ≠ v → fpS u ≠ fpS v := by decide
    obtain ⟨h1, h2, h3⟩ := H v hv
    exact ⟨extractOne_canonical ht hv h1 h3, cleanGender_self v hv h1 h2 h3⟩
  · intro v hv
    have H : ∀ v ∈ raceOptions, fpS v ≠ [] ∧ v ≠ "nan" ∧
        ∀ u ∈ raceOptions, u ≠ v → fpS u ≠ fpS v := by decide
    obtain ⟨h1, h2, h3⟩ := H v hv
    exact ⟨extractOne_canonical ht hv h1 h3, cleanRace_self v hv h1 h2 h3⟩
  · intro v hv
    have H : ∀ v ∈ insuranceOptions, fpS v ≠ [] ∧ v ≠ "nan" ∧
        ∀ u ∈ insuranceOptions, u ≠ v → fpS u ≠ fpS v := by decide
    obtain ⟨h1, h2, h3⟩ := H v hv
    exact ⟨extractOne_canonical ht hv h1 h3, cleanInsurance_self v hv h1 h2 h3⟩
  · intro v hv
    have H : ∀ v ∈ maritalOptions, fpS v ≠ [] ∧ v ≠ "nan" ∧
        ∀ u ∈ maritalOptions, u ≠ v → fpS u ≠ fpS v := by decide
    obtain ⟨h1, h2, h3⟩ := H v hv
    exact ⟨extractOne_canonical ht hv h1 h3, cleanMarital_self v hv h1 h2 h3⟩
  · intro v hv
    have H : ∀ v ∈ assistanceOptions.map pyLower, fpS v ≠ [] ∧ pyLower v = v ∧
        ∀ u ∈ assistanceOptions.map pyLower, u ≠ v → fpS u ≠ fpS v := by decide
    obtain ⟨h1, h2, h3⟩ := H v hv
    exact ⟨extractOne_canonical ht hv h1 h3,
      cleanAssistance_of_lower v v h2 hv h1 h3⟩

/-- C9 (witness for the amended claim) at cutoff 60 and the canonical
value `pending`. -/
theorem claim9_witness :
    (60 : ℚ) ≤ 100 ∧
    (extractOne 60 "pending" requestStatusOptions = some ("pending", 100) ∧
      cleanRequestStatus (Cell.str "pending") = Cell.str "pending") :=
  ⟨by norm_num, (claim9_amended 60 (by norm_num)).1 "pending" (by decide)⟩

/-- C10: everything reaching the `Application Signed?` lambda has been
stringified, so the `pd.notna` guard is constantly true, the `N/A`
fallback is unreachable (no input produces the literal `N/A`), and every
input — including the missing cell, which matches as the string `nan` —
yields one of the lower-case options `yes`/`no`/`n/a`. -/
theorem claim10 :
    (∀ s : String, pdNotnaStr s = true) ∧
    (∀ c : Cell, ∃ o ∈ applicationSignedOptions, cleanApplicationSigned c = Cell.str o) ∧
    (∀ c : Cell, cleanApplicationSigned c ≠ Cell.str "N/A") ∧
    (∃ o ∈ applicationSignedOptions, cleanApplicationSigned Cell.na = Cell.str o) := by
  refine ⟨fun _ => rfl, cleanApplicationSigned_mem, ?_, cleanApplicationSigned_mem Cell.na⟩
  intro c hcontra
  obtain ⟨o, ho, he⟩ := cleanApplicationSigned_mem c
  rw [he] at hcontra
  have ho2 : o = "N/A" := by injection hcontra
  subst ho2
  revert ho
  decide
